import Mathlib

/-
Verification development for the Pairs_Trading_System repository.

Shallow embedding of `src/strategy/backtest.py` (class MultiPairBackTester)
and `src/data/feature_engineering.py` (class FeatureEngineer), followed by
theorems settling the specification claims.

Modelling conventions:
* Python floats are modelled as exact rationals (ℚ).  The only float
  operation with no rational counterpart is the square root used by
  Bollinger-band standard deviations; it is passed in as an abstract
  function parameter.
* A pandas NaN cell is modelled as `none : Option ℚ`.
* Date labels are modelled by their positional index `ℕ` in the price
  index (the spec requires a strictly increasing time index, so label
  addressing and positional addressing agree).
* A Python `dict` is modelled as an association list with unique keys in
  insertion order; inserting an existing key replaces its value in place,
  inserting a fresh key appends, `del` removes the key.
* A Python exception is modelled with `Except`/`Option`: a function that
  may raise returns `Except String α`, and a signal lookup that may raise
  a `KeyError` mid-step is modelled by the signal function returning
  `none` for the current date.
* External collaborators (the strategy and the optional risk manager) are
  interfaces in the source; they are modelled as record fields holding
  arbitrary functions.  `calculate_position_size` also receives the run's
  return table and its correlation matrix, which are constant for a run
  and are absorbed into the supplied closure (the correlation matrix is a
  float computation with irrational intermediate values).
  `update_risk_metrics` mutates only the risk manager's private metric
  store, which the engine never reads during the run; it is a no-op here.
* The strategy is modelled in the signal shape of the third branch of
  `_process_signals_and_update`: a mapping from pair to a per-date signal
  series (`ℕ → Option ℚ`), processed in insertion order with confidence
  fixed at 1.0, exactly as the source does for that shape.  All three
  input shapes funnel into the same `_process_pair_signal`, which is
  modelled in full generality (arbitrary confidence).
* The per-position `features` snapshot and the `Feature_Values` string in
  a trade record are presentation-only payloads (stringified and never
  read back by the engine); they are omitted from the embedded records.
-/

namespace PairsTrading

abbrev Sym := String
abbrev TPair := Sym × Sym

/-- Raw input price frame handed to `MultiPairBackTester.__init__`:
an index of length `n` and one column of optional (possibly-NaN) cells
per symbol. -/
structure RawPrices where
  n : ℕ
  cols : List (Sym × List (Option ℚ))

/-- Forward fill (`DataFrame.ffill`) of one column, carrying the last
observed value into subsequent missing cells. -/
def ffillGo : Option ℚ → List (Option ℚ) → List (Option ℚ)
  | _, [] => []
  | last, none :: rest => last :: ffillGo last rest
  | _, some x :: rest => some x :: ffillGo (some x) rest

def ffill (l : List (Option ℚ)) : List (Option ℚ) := ffillGo none l

/-- Backward fill (`DataFrame.bfill`): forward fill run from the end. -/
def bfill (l : List (Option ℚ)) : List (Option ℚ) := (ffillGo none l.reverse).reverse

/-- One step of `pct_change`: percentage change against the previous
(padded) cell.  Division by zero cannot occur on the inputs exercised by
the claims (pandas would return inf there; ℚ division by zero gives 0). -/
def pctChangeGo : Option ℚ → List (Option ℚ) → List (Option ℚ)
  | _, [] => []
  | prev, x :: rest =>
    (match prev, x with
     | some p, some c => some ((c - p) / p)
     | _, _ => none) :: pctChangeGo x rest

/-- `Series.pct_change()` with its default forward-fill of missing cells
before differencing; the first cell is NaN. -/
def pctChange (l : List (Option ℚ)) : List (Option ℚ) := pctChangeGo none (ffill l)

/-- State held by a constructed `MultiPairBackTester` that the run loop
reads: the filled price table, the derived return table and the scalar
configuration fields. -/
structure Backtester where
  prices : List (Sym × List (Option ℚ))
  returnsTbl : List (Sym × List (Option ℚ))
  n : ℕ
  initialCapital : ℚ
  transactionCost : ℚ
  maxPairs : Option ℕ

/-- Embedding of `MultiPairBackTester.__init__`:
`self.prices = prices.ffill().bfill()` and
`self.returns = prices.pct_change().ffill().bfill()`.  The constructor
contains no validation and no raise path. -/
def mkBacktester (raw : RawPrices) (initialCapital transactionCost : ℚ)
    (maxPairs : Option ℕ) : Backtester :=
  { prices := raw.cols.map (fun c => (c.1, bfill (ffill c.2)))
    returnsTbl := raw.cols.map (fun c => (c.1, bfill (ffill (pctChange c.2))))
    n := raw.n
    initialCapital := initialCapital
    transactionCost := transactionCost
    maxPairs := maxPairs }

/-- Python constructors report failure by raising; `__init__` of
`MultiPairBackTester` has no raise statement and no input validation, so
its effectful embedding always returns `Except.ok`. -/
def mkBacktesterE (raw : RawPrices) (initialCapital transactionCost : ℚ)
    (maxPairs : Option ℕ) : Except String Backtester :=
  Except.ok (mkBacktester raw initialCapital transactionCost maxPairs)

/-- Association-list lookup with structural key equality (`dict[k]` /
`k in dict`). -/
def lookupKey {κ α : Type} [DecidableEq κ] (k : κ) : List (κ × α) → Option α
  | [] => none
  | kv :: rest => if kv.1 = k then some kv.2 else lookupKey k rest

/-- `dict[k] = v`: replace in place when the key exists, append otherwise. -/
def dictInsert {κ α : Type} [DecidableEq κ] (k : κ) (v : α) (l : List (κ × α)) :
    List (κ × α) :=
  if (lookupKey k l).isSome then
    l.map (fun kv => if kv.1 = k then (k, v) else kv)
  else l ++ [(k, v)]

/-- `del dict[k]`: remove the (first) entry with the given key. -/
def dictErase {κ α : Type} [DecidableEq κ] (k : κ) : List (κ × α) → List (κ × α)
  | [] => []
  | kv :: rest => if kv.1 = k then rest else kv :: dictErase k rest

/-- Cells of a column of a price-like table (empty when the symbol is
absent). -/
def colVals (tbl : List (Sym × List (Option ℚ))) (s : Sym) : List (Option ℚ) :=
  (lookupKey s tbl).getD []

/-- `self.prices[sym].loc[date]` on the filled tables.  After
ffill/bfill a NaN can survive only in an entirely missing column, which
no claim exercises; such a degenerate read is modelled as 0. -/
def valAt (tbl : List (Sym × List (Option ℚ))) (s : Sym) (i : ℕ) : ℚ :=
  ((colVals tbl s).getD i none).getD 0

/-- `sym in current_prices` — membership in a row Series checks the
column labels. -/
def hasSym (tbl : List (Sym × List (Option ℚ))) (s : Sym) : Bool :=
  (lookupKey s tbl).isSome

/-- An open position as stored in `self.active_pairs[pair]`. -/
structure Position where
  signal : ℚ
  quantity : ℚ
  entryDate : ℕ
  entryPrice1 : ℚ
  entryPrice2 : ℚ
  confidence : ℚ
  transactionCosts : ℚ
deriving DecidableEq

inductive TAction where
  | ENTRY
  | EXIT
deriving DecidableEq

/-- One appended row of `self.trade_history`. -/
structure TradeRec where
  date : ℕ
  pair : TPair
  action : TAction
  quantity : ℚ
  price1 : ℚ
  price2 : ℚ
  cost : ℚ
  confidence : ℚ
  pnl : Option ℚ
  reason : Option String
deriving DecidableEq

/-- One appended entry of `self.pair_performance[pair]` (flattened, with
the pair recorded in the entry). -/
structure PerfRec where
  pair : TPair
  entryDate : ℕ
  exitDate : ℕ
  holdingPeriod : ℕ
  pnl : ℚ
  ret : ℚ
  confidence : ℚ
  reason : Option String
deriving DecidableEq

/-- The mutable ledger state owned by the backtester during a run. -/
structure BState where
  active : List (TPair × Position)
  history : List TradeRec
  perf : List PerfRec
deriving DecidableEq

/-- Interface of the optional external risk manager (see the modelling
conventions above for the absorbed constant arguments). -/
structure RiskManager where
  minModelConfidence : ℚ
  calcPositionSize : ℚ → TPair → ℚ → ℚ
  checkRiskLimits : List (Option ℚ) → List (TPair × Position) → List (Sym × Option ℚ) → Bool

/-- A full run configuration: the constructed backtester, the strategy's
`max_position_size`, the strategy's signal mapping (dict shape) and the
optional risk manager. -/
structure Cfg where
  bt : Backtester
  maxPositionSize : ℚ
  sigs : List (TPair × (ℕ → Option ℚ))
  rm : Option RiskManager

/-- Embedding of `MultiPairBackTester._open_position`. -/
def openPosition (cfg : Cfg) (st : BState) (pair : TPair)
    (signal quantity pv : ℚ) (date : ℕ) (confidence : ℚ) : BState × ℚ :=
  let price1 := valAt cfg.bt.prices pair.1 date
  let price2 := valAt cfg.bt.prices pair.2 date
  let positionValue := |quantity| * (price1 + price2)
  let totalCost := positionValue * cfg.bt.transactionCost
  if positionValue + totalCost > pv then (st, pv)
  else
    ({ st with
        active := dictInsert pair
          ⟨signal, quantity, date, price1, price2, confidence, totalCost⟩ st.active
        history := st.history ++
          [⟨date, pair, .ENTRY, quantity * signal, price1, price2, totalCost,
            confidence, none, none⟩] },
      pv - totalCost - positionValue)

/-- Embedding of `MultiPairBackTester._close_position`.  Note the source
reads the exit "prices" from `self.returns` (the percentage-change
table), not from `self.prices`, while the stored entry prices are price
levels. -/
def closePosition (cfg : Cfg) (st : BState) (pair : TPair) (pv : ℚ)
    (date : ℕ) (reason : String) : BState × ℚ :=
  match lookupKey pair st.active with
  | none => (st, pv)
  | some pos =>
    let currentPrice1 := valAt cfg.bt.returnsTbl pair.1 date
    let currentPrice2 := valAt cfg.bt.returnsTbl pair.2 date
    let entrySpread := pos.entryPrice1 - pos.entryPrice2
    let exitSpread := currentPrice1 - currentPrice2
    let spreadPnl := pos.quantity * pos.signal * (exitSpread - entrySpread)
    let exitValue := pos.quantity * (currentPrice1 + currentPrice2)
    let exitCost := exitValue * cfg.bt.transactionCost
    let totalPnl := spreadPnl - pos.transactionCosts - exitCost
    ({ active := dictErase pair st.active
       history := st.history ++
         [⟨date, pair, .EXIT, -pos.quantity * pos.signal, currentPrice1,
           currentPrice2, exitCost, pos.confidence, some totalPnl, some reason⟩]
       perf := st.perf ++
         [⟨pair, pos.entryDate, date, date - pos.entryDate, totalPnl,
           totalPnl / exitValue, pos.confidence, some reason⟩] },
      pv + totalPnl)

/-- Embedding of `MultiPairBackTester._validate_pair_trade`.  A Python
`if self.max_pairs and ...` treats both `None` and `0` as "no cap", so
the cap is modelled as `maxPairs.getD 0` with 0 meaning uncapped. -/
def validatePairTrade (cfg : Cfg) (st : BState) (pair : TPair) (quantity : ℚ) :
    Bool :=
  if ¬ quantity > 0 then false
  else if cfg.bt.maxPairs.getD 0 ≠ 0 ∧ st.active.length ≥ cfg.bt.maxPairs.getD 0 then
    false
  else hasSym cfg.bt.returnsTbl pair.1 && hasSym cfg.bt.returnsTbl pair.2

/-- The close block at the head of
`MultiPairBackTester._process_pair_signal`: an open position is closed
when the signal is zero or its sign flips against the stored signal. -/
def closeGate (cfg : Cfg) (st : BState) (pair : TPair)
    (signal pv : ℚ) (date : ℕ) : BState × ℚ :=
  match lookupKey pair st.active with
  | some pos =>
    if signal = 0 ∨ signal * pos.signal < 0 then
      closePosition cfg st pair pv date "Signal change"
    else (st, pv)
  | none => (st, pv)

/-- Embedding of `MultiPairBackTester._process_pair_signal`: close on a
zero or sign-flipped signal, then (gated on confidence, sizing and
validation) open when the signal is nonzero and no position remains. -/
def processPairSignal (cfg : Cfg) (st : BState) (pair : TPair)
    (signal pv : ℚ) (date : ℕ) (confidence : ℚ) : BState × ℚ :=
  let closed := closeGate cfg st pair signal pv date
  let st1 := closed.1
  let pv1 := closed.2
  let openStep : ℚ → BState × ℚ := fun quantity =>
    if validatePairTrade cfg st1 pair quantity then
      openPosition cfg st1 pair signal quantity pv1 date confidence
    else (st1, pv1)
  if signal ≠ 0 ∧ lookupKey pair st1.active = none then
    match cfg.rm with
    | some rm =>
      if confidence < rm.minModelConfidence then (st1, pv1)
      else openStep (rm.calcPositionSize pv1 pair confidence)
    | none => openStep (pv1 * cfg.maxPositionSize)
  else (st1, pv1)

/-- Embedding of `MultiPairBackTester._process_signals_and_update` for
the dict signal shape: pairs are processed in insertion order with
confidence 1.0; a pair referencing a symbol absent from the current
price row is skipped; a failed lookup of the current date in a signal
series raises, which abandons the rest of the step while keeping the
ledger mutations already made (result `none`). -/
def processSignalsAndUpdate (cfg : Cfg) :
    BState → ℚ → ℕ → List (TPair × (ℕ → Option ℚ)) → BState × Option ℚ
  | st, pv, _, [] => (st, some pv)
  | st, pv, date, (pair, f) :: rest =>
    if hasSym cfg.bt.prices pair.1 ∧ hasSym cfg.bt.prices pair.2 then
      match f date with
      | none => (st, none)
      | some signalValue =>
        let stepped := processPairSignal cfg st pair signalValue pv date 1
        processSignalsAndUpdate cfg stepped.1 stepped.2 date rest
    else processSignalsAndUpdate cfg st pv date rest

/-- Result of a run: final ledger state, the local portfolio value and
the equity curve (one optional cell per index position). -/
structure RunResult where
  state : BState
  finalValue : ℚ
  equity : List (Option ℚ)
deriving DecidableEq

/-- `self.prices.loc[current_date].to_dict()` as passed to the risk
check. -/
def currentPricesDict (bt : Backtester) (i : ℕ) : List (Sym × Option ℚ) :=
  bt.prices.map (fun c => (c.1, c.2.getD i none))

/-- The risk-limit test guarding the early exit of the loop
(`false` when no risk manager is configured). -/
def checkBreach (cfg : Cfg) (eq : List (Option ℚ)) (st : BState) (i : ℕ) : Bool :=
  match cfg.rm with
  | none => false
  | some rm => rm.checkRiskLimits eq st.active (currentPricesDict cfg.bt i)

/-- The day-by-day loop of `run_backtest` over the remaining positional
indices.  A step whose signal processing raises writes no equity cell
and carries the previous portfolio value forward (the `except ...
continue` branch); a successful step records its equity cell and then
stops the whole run if the risk check reports a breach. -/
def runLoop (cfg : Cfg) : BState → ℚ → List (Option ℚ) → List ℕ → RunResult
  | st, pv, eq, [] => ⟨st, pv, eq⟩
  | st, pv, eq, i :: rest =>
    match processSignalsAndUpdate cfg st pv i cfg.sigs with
    | (st1, none) => runLoop cfg st1 pv eq rest
    | (st1, some pv1) =>
      let eq1 := eq.set i (some pv1)
      if checkBreach cfg eq1 st1 i then ⟨st1, pv1, eq1⟩
      else runLoop cfg st1 pv1 eq1 rest

/-- Embedding of `MultiPairBackTester.run_backtest`: the equity curve is
preallocated over the whole price index (all cells NaN), cell 0 is set
to the initial capital, and the loop runs over positions 1 .. n-1. -/
def runBacktest (cfg : Cfg) : RunResult :=
  let eq0 := (List.replicate cfg.bt.n (none : Option ℚ)).set 0
    (some cfg.bt.initialCapital)
  runLoop cfg ⟨[], [], []⟩ cfg.bt.initialCapital eq0 (List.range' 1 (cfg.bt.n - 1))

/-! Embedding of `src/data/feature_engineering.py` (class FeatureEngineer).

A data frame handed to `generate_features` is a list of rows carrying the
four required columns `Date`, `Symbol`, `Adj_Close`, `Volume` as
structure fields, plus a dictionary `feats` of further (indicator)
columns whose cells may be NaN.  Frames built per symbol always share
one column set, so frame-level column operations act on every row's
`feats` in parallel.  The indicator functions are modelled at the
arguments `generate_features` passes them (its defaults); the float
square root needed by rolling standard deviations has no rational
counterpart and is taken as an abstract function parameter. -/

/-- One row of a feature data frame. -/
structure FRow where
  date : ℕ
  symbol : String
  adjClose : ℚ
  volume : ℚ
  feats : List (String × Option ℚ)
deriving DecidableEq

/-- Configuration of `FeatureEngineer.__init__`
(`min_periods`, `fill_method`, `validate`). -/
structure FeatureEngineer where
  minPeriods : Option ℕ
  fillMethod : Option String
  validate : Bool

/-- Read one indicator cell of a row (absent column reads as NaN). -/
def getFeat (r : FRow) (name : String) : Option ℚ :=
  (lookupKey name r.feats).getD none

/-- Assign one indicator cell of a row. -/
def setFeat (r : FRow) (name : String) (v : Option ℚ) : FRow :=
  { r with feats := dictInsert name v r.feats }

/-- `df[col] = series`: assign a whole column. -/
def setFeatCol (name : String) (vals : List (Option ℚ)) (rows : List FRow) :
    List FRow :=
  List.zipWith (fun r v => setFeat r name v) rows vals

/-- Pointwise binary operation on two optional cells (NaN-propagating). -/
def o2 (f : ℚ → ℚ → ℚ) (a b : Option ℚ) : Option ℚ :=
  match a, b with
  | some x, some y => some (f x y)
  | _, _ => none

/-- The chronological window of length at most `window` ending at
position `i`. -/
def windowSlice (window : ℕ) (xs : List ℚ) (i : ℕ) : List ℚ :=
  (xs.drop (i + 1 - window)).take (i + 1 - (i + 1 - window))

/-- `Series.rolling(window, min_periods).mean()` over a NaN-free input
column. -/
def rollingMean (window minP : ℕ) (xs : List ℚ) : List (Option ℚ) :=
  (List.range xs.length).map (fun i =>
    let s := windowSlice window xs i
    if s.length ≥ minP then some (s.sum / (s.length : ℚ)) else none)

/-- `Series.rolling(window, min_periods).std()` squared: the sample
variance (ddof = 1); a window with fewer than two observations yields
NaN. -/
def rollingVarSample (window minP : ℕ) (xs : List ℚ) : List (Option ℚ) :=
  (List.range xs.length).map (fun i =>
    let s := windowSlice window xs i
    if s.length ≥ minP ∧ 2 ≤ s.length then
      let m := s.sum / (s.length : ℚ)
      some ((s.map (fun x => (x - m) ^ 2)).sum / ((s.length : ℚ) - 1))
    else none)

/-- The weighted rolling mean of `add_moving_average` with
`ma_type='weighted'`: weights 1.. aligned with the oldest window cell. -/
def weightedWindowMean (window minP : ℕ) (xs : List ℚ) : List (Option ℚ) :=
  (List.range xs.length).map (fun i =>
    let s := windowSlice window xs i
    if s.length ≥ minP then
      let wsum := ((List.range s.length).map (fun j => ((j : ℚ) + 1))).sum
      some (((s.zip (List.range s.length)).map
        (fun p => p.1 * ((p.2 : ℚ) + 1))).sum / wsum)
    else none)

/-- The running recursion of `Series.ewm(..., adjust=False).mean()`:
`y = (1-alpha)*y + alpha*x` at an observation; a NaN input cell carries
the running mean forward unchanged (output NaN only before the first
observation).  Pandas' float bookkeeping for gaps is approximated by
this carry; no claim evaluates it on an input with interior NaNs. -/
def ewmGo (alpha : ℚ) : Option ℚ → List (Option ℚ) → List (Option ℚ)
  | _, [] => []
  | prev, none :: rest => prev :: ewmGo alpha prev rest
  | prev, some x :: rest =>
    let y := match prev with
      | none => x
      | some p => (1 - alpha) * p + alpha * x
    some y :: ewmGo alpha (some y) rest

/-- Mask an output column to NaN while the count of observations
(non-NaN input cells) is below `min_periods`. -/
def obsMaskGo (minP : ℕ) : ℕ → List (Option ℚ) → List (Option ℚ) → List (Option ℚ)
  | _, [], _ => []
  | _, _ :: _, [] => []
  | c, x :: xs, y :: ys =>
    let c1 := if x.isSome then c + 1 else c
    (if c1 ≥ minP then y else none) :: obsMaskGo minP c1 xs ys

/-- `Series.ewm(alpha, min_periods, adjust=False).mean()`. -/
def ewmMeanOpt (alpha : ℚ) (minP : ℕ) (xs : List (Option ℚ)) : List (Option ℚ) :=
  obsMaskGo minP 0 xs (ewmGo alpha none xs)

/-- `alpha` corresponding to `span` in `Series.ewm(span=...)`. -/
def spanAlpha (span : ℚ) : ℚ := 2 / (span + 1)

/-- `Series.diff()`: NaN first cell, then successive differences. -/
def diffList (xs : List ℚ) : List (Option ℚ) :=
  match xs with
  | [] => []
  | _ :: rest => none :: (List.zipWith (fun b a => b - a) rest xs).map some

/-- `Series.pct_change()` on a NaN-free column. -/
def pctChangeSeries (xs : List ℚ) : List (Option ℚ) :=
  match xs with
  | [] => []
  | _ :: rest => none :: (List.zipWith (fun b a => (b - a) / a) rest xs).map some

/-- `Series.cumsum()`. -/
def cumsum (xs : List ℚ) : List ℚ := (xs.scanl (· + ·) 0).tail

/-- Embedding of `FeatureEngineer._validate_data`: raises on an empty
frame; the required columns are structural fields of `FRow`, and the
NaN check only logs a warning. -/
def validateFE (fe : FeatureEngineer) (rows : List FRow) : Except String Unit :=
  if fe.validate ∧ rows.isEmpty then Except.error "Empty DataFrame provided"
  else Except.ok ()

/-- Embedding of `FeatureEngineer._handle_nans`. -/
def handleNans (fe : FeatureEngineer) (featureCols : List String)
    (rows : List FRow) : Except String (List FRow) :=
  match fe.fillMethod with
  | some "drop" =>
    Except.ok (rows.filter (fun r => featureCols.all (fun c => (getFeat r c).isSome)))
  | some "backfill" =>
    Except.ok (featureCols.foldl
      (fun acc c => setFeatCol c (bfill (acc.map (fun r => getFeat r c))) acc) rows)
  | none => Except.ok rows
  | some other => Except.error ("Unknown fill method: " ++ other)

/-- Embedding of `FeatureEngineer.add_moving_average` at the call sites'
arguments (window 20, column Adj_Close).  An unknown `ma_type` creates
no column, which the source's `_handle_nans` then fails on (KeyError);
call sites use only the three handled types. -/
def addMovingAverage (fe : FeatureEngineer) (maType : String)
    (rows : List FRow) : Except String (List FRow) := do
  let _ ← validateFE fe rows
  let minP := fe.minPeriods.getD 20
  let xs := rows.map (fun r => r.adjClose)
  let maCol := maType.toUpper ++ "_MA_20"
  if maType = "simple" then
    handleNans fe [maCol] (setFeatCol maCol (rollingMean 20 minP xs) rows)
  else if maType = "weighted" then
    handleNans fe [maCol] (setFeatCol maCol (weightedWindowMean 20 minP xs) rows)
  else if maType = "exp" then
    handleNans fe [maCol]
      (setFeatCol maCol (ewmMeanOpt (spanAlpha 20) minP (xs.map some)) rows)
  else Except.error ("unknown moving average type: " ++ maType)

/-- Embedding of `FeatureEngineer.add_rsi` (window 14, column
Adj_Close).  `delta.where(delta > 0, 0)` maps the NaN head cell to 0
since NaN compares false. -/
def addRsi (fe : FeatureEngineer) (method : String) (rows : List FRow) :
    Except String (List FRow) := do
  let _ ← validateFE fe rows
  let minP := fe.minPeriods.getD 14
  let xs := rows.map (fun r => r.adjClose)
  let deltas := diffList xs
  let gains := deltas.map (fun d => match d with
    | some v => if v > 0 then v else 0
    | none => 0)
  let losses := deltas.map (fun d => match d with
    | some v => if v < 0 then -v else 0
    | none => 0)
  let gl ←
    if method = "wilder" then
      pure (ewmMeanOpt (1 / 14) minP (gains.map some),
            ewmMeanOpt (1 / 14) minP (losses.map some))
    else if method = "cutler" then
      pure (rollingMean 14 minP gains, rollingMean 14 minP losses)
    else Except.error ("Unknown RSI method: " ++ method)
  let rs := List.zipWith (o2 (fun g l => g / (l + 1 / 1000000000000))) gl.1 gl.2
  let rsi := rs.map (Option.map (fun v => 100 - 100 / (1 + v)))
  handleNans fe ["RSI"] (setFeatCol "RSI" rsi rows)

/-- Embedding of `FeatureEngineer.add_macd` (periods 12/26/9, column
Adj_Close). -/
def addMacd (fe : FeatureEngineer) (rows : List FRow) :
    Except String (List FRow) := do
  let _ ← validateFE fe rows
  let minP := fe.minPeriods.getD 26
  let xs := (rows.map (fun r => r.adjClose)).map some
  let fast := ewmMeanOpt (spanAlpha 12) minP xs
  let slow := ewmMeanOpt (spanAlpha 26) minP xs
  let macdC := List.zipWith (o2 (fun a b => a - b)) fast slow
  let rows1 := setFeatCol "MACD" macdC rows
  let sigC := ewmMeanOpt (spanAlpha 9) (fe.minPeriods.getD 9) macdC
  let rows2 := setFeatCol "Signal_Line" sigC rows1
  let histC := List.zipWith (o2 (fun a b => a - b)) macdC sigC
  let rows3 := setFeatCol "MACD_Histogram" histC rows2
  handleNans fe ["MACD", "Signal_Line", "MACD_Histogram"] rows3

/-- Embedding of `FeatureEngineer.add_bollinger_bands` (window 20,
num_std 2, column Adj_Close).  `sqrtA` models the float square root of
the rolling sample variance.  A zero divisor in the bandwidth or %B
ratio would be inf/NaN in pandas and 0 in ℚ; no claim evaluates it. -/
def addBollingerBands (fe : FeatureEngineer) (sqrtA : ℚ → ℚ)
    (rows : List FRow) : Except String (List FRow) := do
  let _ ← validateFE fe rows
  let minP := fe.minPeriods.getD 20
  let xs := rows.map (fun r => r.adjClose)
  let sma := rollingMean 20 minP xs
  let stdC := (rollingVarSample 20 minP xs).map (Option.map sqrtA)
  let up := List.zipWith (o2 (fun m s => m + s * 2)) sma stdC
  let lo := List.zipWith (o2 (fun m s => m - s * 2)) sma stdC
  let bw := List.zipWith (o2 (fun d m => d / m))
    (List.zipWith (o2 (fun a b => a - b)) up lo) sma
  let pb := List.zipWith (o2 (fun n d => n / d))
    (List.zipWith (o2 (fun x l => x - l)) (xs.map some) lo)
    (List.zipWith (o2 (fun a b => a - b)) up lo)
  let rows1 := setFeatCol "BB_Middle" sma rows
  let rows2 := setFeatCol "BB_Upper" up rows1
  let rows3 := setFeatCol "BB_Lower" lo rows2
  let rows4 := setFeatCol "BB_Bandwidth" bw rows3
  let rows5 := setFeatCol "%B" pb rows4
  handleNans fe ["BB_Middle", "BB_Upper", "BB_Lower", "BB_Bandwidth", "%B"] rows5

/-- Embedding of `FeatureEngineer.add_volume_indicators` (window 20).
The NaN head of `diff`/`pct_change` contributes 0 after `fillna(0)`. -/
def addVolumeIndicators (fe : FeatureEngineer) (rows : List FRow) :
    Except String (List FRow) := do
  let _ ← validateFE fe rows
  let minP := fe.minPeriods.getD 20
  let xs := rows.map (fun r => r.adjClose)
  let vs := rows.map (fun r => r.volume)
  let volSMA := rollingMean 20 minP vs
  let obvContrib := List.zipWith (fun d v => match d with
    | some dv => (if dv > 0 then (1 : ℚ) else if dv < 0 then -1 else 0) * v
    | none => 0) (diffList xs) vs
  let obv := (cumsum obvContrib).map some
  let vptContrib := List.zipWith (fun p v => match p with
    | some pv => v * pv
    | none => 0) (pctChangeSeries xs) vs
  let vpt := (cumsum vptContrib).map some
  let rows1 := setFeatCol "Volume_SMA" volSMA rows
  let rows2 := setFeatCol "OBV" obv rows1
  let rows3 := setFeatCol "VPT" vpt rows2
  handleNans fe ["Volume_SMA", "OBV", "VPT"] rows3

/-- `Series.unique()`: values in order of first occurrence. -/
def dedupFirst (l : List String) : List String :=
  l.foldl (fun acc s => if s ∈ acc then acc else acc ++ [s]) []

/-- Sort key of the per-symbol `sort_values('Date')`. -/
def dateLE : FRow → FRow → Prop := fun a b => a.date ≤ b.date

/-- Sort key of the final `sort_values(['Date', 'Symbol'])`. -/
def dateSymLE : FRow → FRow → Prop := fun a b =>
  a.date < b.date ∨ (a.date = b.date ∧ a.symbol ≤ b.symbol)

instance : DecidableRel dateLE := fun a b =>
  inferInstanceAs (Decidable (a.date ≤ b.date))

instance : DecidableRel dateSymLE := fun a b =>
  inferInstanceAs (Decidable (a.date < b.date ∨ (a.date = b.date ∧ a.symbol ≤ b.symbol)))

instance : IsTotal FRow dateSymLE :=
  ⟨by
    intro a b
    simp only [dateSymLE]
    rcases Nat.lt_trichotomy a.date b.date with h | h | h
    · exact Or.inl (Or.inl h)
    · rcases le_total a.symbol b.symbol with hs | hs
      · exact Or.inl (Or.inr ⟨h, hs⟩)
      · exact Or.inr (Or.inr ⟨h.symm, hs⟩)
    · exact Or.inr (Or.inl h)⟩

instance : IsTrans FRow dateSymLE :=
  ⟨by
    intro a b c hab hbc
    simp only [dateSymLE] at hab hbc ⊢
    rcases hab with h1 | ⟨h1, hs1⟩
    · rcases hbc with h2 | ⟨h2, hs2⟩
      · exact Or.inl (h1.trans h2)
      · exact Or.inl (h2 ▸ h1)
    · rcases hbc with h2 | ⟨h2, hs2⟩
      · exact Or.inl (h1 ▸ h2)
      · exact Or.inr ⟨h1.trans h2, hs1.trans hs2⟩⟩

/-- The per-symbol prefixing loop of `generate_features`: every
non-core column `c` becomes `symbol_c` (each is copied to the renamed
column appended at the end and then dropped, in column order, so the
net effect is an order-preserving rename). -/
def renameFeats (s : String) (r : FRow) : FRow :=
  { r with feats := r.feats.map (fun kv => (s ++ "_" ++ kv.1, kv.2)) }

/-- The indicator dispatch chain inside the per-symbol try block of
`generate_features`: each indicator runs only when its tag is a member
of `features or []`. -/
def pipelineFE (fe : FeatureEngineer) (sqrtA : ℚ → ℚ)
    (features : Option (List String)) (rows : List FRow) :
    Except String (List FRow) := do
  let fl := features.getD []
  let s1 ← if "sma" ∈ fl then addMovingAverage fe "simple" rows else pure rows
  let s2 ← if "ema" ∈ fl then addMovingAverage fe "exp" s1 else pure s1
  let s3 ← if "wma" ∈ fl then addMovingAverage fe "weighted" s2 else pure s2
  let s4 ← if "rsi" ∈ fl then addRsi fe "wilder" s3 else pure s3
  let s5 ← if "macd" ∈ fl then addMacd fe s4 else pure s4
  let s6 ← if "bbands" ∈ fl then addBollingerBands fe sqrtA s5 else pure s5
  let s7 ← if "volume" ∈ fl then addVolumeIndicators fe s6 else pure s6
  pure s7

/-- Embedding of `FeatureEngineer.generate_features`: validate, process
each symbol's rows (sorted by date) through the selected indicators,
skip a symbol whose processing raises, prefix its indicator columns
with the symbol name, concatenate, and sort the union by date and
symbol. -/
def generateFeatures (fe : FeatureEngineer) (sqrtA : ℚ → ℚ)
    (df : List FRow) (features : Option (List String)) :
    Except String (List FRow) :=
  if fe.validate ∧ df.isEmpty then Except.error "Empty DataFrame provided"
  else Except.ok (List.insertionSort dateSymLE
    ((dedupFirst (df.map (fun r => r.symbol))).foldl (fun acc s =>
      match pipelineFE fe sqrtA features
          (List.insertionSort dateLE (df.filter (fun r => r.symbol = s))) with
      | Except.error _ => acc
      | Except.ok sd => acc ++ sd.map (renameFeats s)) []))

/-- The per-pair action subsequence of the trade history. -/
def actionsOf (h : List TradeRec) (p : TPair) : List TAction :=
  (h.filter (fun r => r.pair = p)).map (fun r => r.action)

/-- One step of the position lifecycle automaton: a flat pair accepts
exactly an ENTRY, an open pair exactly an EXIT; anything else is a
fault. -/
def lcStep : Option Bool → TAction → Option Bool
  | some false, TAction.ENTRY => some true
  | some true, TAction.EXIT => some false
  | _, _ => none

/-- Run the lifecycle automaton from flat over an action sequence:
`some true` / `some false` mean a well-nested alternation
ENTRY, EXIT, ENTRY, ... ending open / flat; `none` a malformed one
(a phantom EXIT, a double ENTRY, or an ENTRY-less pair). -/
def traceState (l : List TAction) : Option Bool := l.foldl lcStep (some false)

/-- Invariant tying the trade history to the open-position ledger: each
pair's filtered history is a well-nested ENTRY/EXIT alternation that
ends open exactly when the pair is in the ledger, and the ledger's keys
are unique. -/
def LifecycleInv (st : BState) : Prop :=
  (∀ p : TPair,
    traceState (actionsOf st.history p) = some (lookupKey p st.active).isSome) ∧
  (st.active.map Prod.fst).Nodup

/-! Concrete scenario configurations used by individual claims. -/

/-- The spec's worked scenario prices: symbols A and B over five days. -/
def rawScenario : RawPrices :=
  ⟨5, [("A", [some 100, some 101, some 102, some 103, some 104]),
       ("B", [some 100, some 100, some 99, some 101, some 100])]⟩

/-- Worked scenario of §8: transaction cost 0.001, initial capital
100000, signal +1 for (A, B) on days 1-2 and 0 afterwards, fallback
sizing tuned to a quantity of 10 at the opening portfolio value. -/
def cfgC1 : Cfg :=
  { bt := mkBacktester rawScenario 100000 (1 / 1000) none
    maxPositionSize := 1 / 10000
    sigs := [(("A", "B"), fun i => some (if i = 1 ∨ i = 2 then 1 else 0))]
    rm := none }

/-- The worked scenario re-run with transaction cost 0 (capital
conservation setting: all positions closed by the end of the run). -/
def cfgC2 : Cfg :=
  { bt := mkBacktester rawScenario 100000 0 none
    maxPositionSize := 1 / 10000
    sigs := [(("A", "B"), fun i => some (if i = 1 ∨ i = 2 then 1 else 0))]
    rm := none }

/-- Sum of the PnL cells of all recorded closed (EXIT) trades. -/
def recordedPnlSum (h : List TradeRec) : ℚ :=
  ((h.filter (fun r => r.action = TAction.EXIT)).map (fun r => r.pnl.getD 0)).sum

/-- The empty raw input frame. -/
def emptyRaw : RawPrices := ⟨0, []⟩

/-- A one-column (fewer than 2 symbols) raw input frame. -/
def oneSymRaw : RawPrices := ⟨2, [("A", [some 1, some 2])]⟩

/-- Minimal configuration for the insufficient-capital witness: two
symbols priced 1, zero available capital. -/
def cfgC6 : Cfg :=
  { bt := mkBacktester ⟨1, [("A", [some 1]), ("B", [some 1])]⟩ 0 (1 / 1000) none
    maxPositionSize := 1
    sigs := []
    rm := none }

/-- Minimal one-day configuration with a non-empty index, used to
witness the equity-curve-shape theorem. -/
def cfgC5 : Cfg :=
  { bt := mkBacktester ⟨1, [("A", [some 1]), ("B", [some 1])]⟩ 100 (1 / 1000) none
    maxPositionSize := 1
    sigs := []
    rm := none }

/-- A risk manager whose limit check always reports a breach. -/
def rmAlwaysBreach : RiskManager :=
  { minModelConfidence := 0
    calcPositionSize := fun pv _ _ => pv
    checkRiskLimits := fun _ _ _ => true }

/-- Two-day configuration with no signals and an always-breaching risk
manager, used to witness the halt-on-breach theorem. -/
def cfgC7 : Cfg :=
  { bt := mkBacktester ⟨2, [("A", [some 1, some 1])]⟩ 5 0 none
    maxPositionSize := 1
    sigs := []
    rm := some rmAlwaysBreach }

/-- Two-day, two-pair configuration with all-zero signals, used to
witness the zero-signal theorem. -/
def cfgC8 : Cfg :=
  { bt := mkBacktester ⟨2, [("A", [some 1, some 2]), ("B", [some 3, some 4])]⟩
      100000 (1 / 1000) none
    maxPositionSize := 1 / 10000
    sigs := [(("A", "B"), fun _ => some 0)]
    rm := none }

/-- Mid-step-exception scenario: the first pair (A, B) opens on day 1,
then the signal lookup for the second pair (C, D) raises on day 1
(models a KeyError on `signal_row.loc[current_date]`); day 2 is
uneventful. -/
def cfgC9 : Cfg :=
  { bt := mkBacktester
      ⟨3, [("A", [some 100, some 101, some 102]),
           ("B", [some 100, some 100, some 100]),
           ("C", [some 100, some 100, some 100]),
           ("D", [some 100, some 100, some 100])]⟩ 100000 (1 / 1000) none
    maxPositionSize := 1 / 10000
    sigs := [(("A", "B"), fun _ => some 1),
             (("C", "D"), fun i => if i = 1 then none else some 0)]
    rm := none }

/-- A two-row, two-symbol feature frame with no indicator columns, used
to witness the generate-features-with-None theorem. -/
def dfC10 : List FRow := [⟨1, "B", 5, 7, []⟩, ⟨0, "A", 3, 4, []⟩]

/-- The default FeatureEngineer configuration
(`min_periods=None, fill_method='backfill', validate=True`). -/
def feC10 : FeatureEngineer := ⟨none, some "backfill", true⟩

/-! Theorems settling the claims.

The rational arithmetic primitives are sealed `irreducible` upstream;
they are unsealed here so that concrete runs of the embedded engine can
be evaluated inside proofs by `decide`. -/

unseal Rat.add Rat.mul Rat.sub Rat.inv

/-- Claim C1 (status code_bug).  The claim (and the spec's worked
scenario) requires the close-side PnL to be computed from the pair's
price levels at the close date, giving totalPnl = 5.95 and a portfolio
value of 97993.94 on day 3.  The source instead reads the exit "prices"
from `self.returns`, the percentage-change table (exit spread
1/102 - 2/99 against the price-level entry spread 1), so on the worked
scenario the recorded close PnL is -370697/30600 ≈ -12.11 and the day-3
equity cell is 2998061797/30600 ≈ 97975.88, not the claimed values. -/
theorem claim_C1_close_reads_return_table :
    ((runBacktest cfgC1).state.history.filter
        (fun r => r.action = TAction.EXIT)).map (fun r => r.pnl) =
      [some (-370697 / 30600)] ∧
    (runBacktest cfgC1).equity.getD 3 none = some (2998061797 / 30600) ∧
    ((-370697 / 30600 : ℚ) ≠ 119 / 20) ∧
    ((2998061797 / 30600 : ℚ) ≠ 9799394 / 100) := by
  decide

/-- Claim C2 (status code_bug).  In the zero-transaction-cost worked
scenario every position is closed by the end of the run, yet the final
equity cell is 164900165/1683 = 97990 - 17005/1683 while initial
capital plus the sum of recorded trade PnLs is 100000 - 17005/1683:
`_open_position` debits the full position notional (2010) from the
portfolio value, but `_close_position` credits back only the PnL, so
the claimed conservation identity fails by exactly the notional. -/
theorem claim_C2_capital_not_conserved :
    (runBacktest cfgC2).state.active = [] ∧
    recordedPnlSum (runBacktest cfgC2).state.history = -17005 / 1683 ∧
    (runBacktest cfgC2).equity.getD 4 none = some (164900165 / 1683) ∧
    ((164900165 / 1683 : ℚ) ≠ 100000 + (-17005 / 1683)) := by
  decide

/-- Claim C9 (status confirmed).  Concrete witness of non-atomic step
processing: on day 1 the pair (A, B) is opened (ENTRY appended, ledger
mutated, 2012.01 debited from the local portfolio value), then the
signal lookup for (C, D) raises; the opened position and its ENTRY
record persist, the equity cell of the failed day stays unwritten, and
the next day's equity is the start-of-step value 100000 — the open's
capital debit is discarded. -/
theorem claim_C9_step_not_atomic :
    (runBacktest cfgC9).state.active.map Prod.fst = [("A", "B")] ∧
    (runBacktest cfgC9).state.history.map (fun r => r.action) = [TAction.ENTRY] ∧
    (runBacktest cfgC9).finalValue = 100000 ∧
    (runBacktest cfgC9).equity = [some 100000, none, some 100000] := by
  decide

/-- Claim C3, counterexample.  Construction from the empty raw frame
(and likewise from any input with fewer than 2 symbols) does not raise:
`__init__` contains no validation, so it produces a (degenerate) price
table instead of failing with a DataIntegrityError. -/
theorem claim_C3_counterexample :
    (mkBacktesterE emptyRaw 100000 (1 / 1000) none).isOk = true ∧
    (mkBacktester emptyRaw 100000 (1 / 1000) none).prices = [] ∧
    (mkBacktesterE oneSymRaw 100000 (1 / 1000) none).isOk = true :=
  ⟨rfl, rfl, rfl⟩

/-- Claim C3, amended (status corrected).  Construction of the
backtester's normalized price table never fails: for every raw input —
including the empty table and tables with fewer than 2 symbols — it
succeeds and produces a price table with exactly the input's columns,
normalized by forward then backward fill. -/
theorem claim_C3_construction_never_fails (raw : RawPrices)
    (ic tc : ℚ) (mp : Option ℕ) :
    (mkBacktesterE raw ic tc mp).isOk = true ∧
    (mkBacktester raw ic tc mp).prices.map Prod.fst = raw.cols.map Prod.fst := by
  refine ⟨rfl, ?_⟩
  simp [mkBacktester]

/-- Claim C6 (status confirmed).  Whenever the position value plus the
entry transaction cost exceeds the available portfolio value,
`_open_position` is a no-op: it returns the ledger state and portfolio
value unchanged (no position inserted, no ENTRY record appended), and
being a total function it raises nothing — the step continues. -/
theorem claim_C6_insufficient_capital_noop (cfg : Cfg) (st : BState)
    (pair : TPair) (signal quantity pv : ℚ) (date : ℕ) (confidence : ℚ)
    (h : |quantity| * (valAt cfg.bt.prices pair.1 date + valAt cfg.bt.prices pair.2 date) +
         |quantity| * (valAt cfg.bt.prices pair.1 date + valAt cfg.bt.prices pair.2 date) *
           cfg.bt.transactionCost > pv) :
    openPosition cfg st pair signal quantity pv date confidence = (st, pv) := by
  simp only [openPosition]
  rw [if_pos h]

/-- Witness for claim C6 at a concrete input: two symbols priced 1 and
no available capital. -/
theorem claim_C6_witness :
    (|(1 : ℚ)| * (valAt cfgC6.bt.prices "A" 0 + valAt cfgC6.bt.prices "B" 0) +
       |(1 : ℚ)| * (valAt cfgC6.bt.prices "A" 0 + valAt cfgC6.bt.prices "B" 0) *
         cfgC6.bt.transactionCost > 0) ∧
    openPosition cfgC6 ⟨[], [], []⟩ ("A", "B") 1 1 0 0 1 = (⟨[], [], []⟩, 0) :=
  ⟨by decide,
   claim_C6_insufficient_capital_noop cfgC6 ⟨[], [], []⟩ ("A", "B") 1 1 0 0 1
     (by decide)⟩

/-- Claim C7 (status confirmed).  If a step's signal processing
succeeds and the risk-limit check then reports a breach at step `i`,
the loop returns immediately after recording step `i`'s equity cell:
the run's result is exactly the state, portfolio value and equity curve
produced by step `i`, so no ledger mutation or equity write ever occurs
for any later timestep. -/
theorem claim_C7_breach_halts_run (cfg : Cfg) (st : BState) (pv : ℚ)
    (eq : List (Option ℚ)) (i : ℕ) (rest : List ℕ) (st1 : BState) (pv1 : ℚ)
    (hstep : processSignalsAndUpdate cfg st pv i cfg.sigs = (st1, some pv1))
    (hbreach : checkBreach cfg (eq.set i (some pv1)) st1 i = true) :
    runLoop cfg st pv eq (i :: rest) = ⟨st1, pv1, eq.set i (some pv1)⟩ := by
  unfold runLoop
  rw [hstep]
  simp [hbreach]

/-- Witness for claim C7 at a concrete input: an empty signal list and
an always-breaching risk manager on a two-day index. -/
theorem claim_C7_witness :
    processSignalsAndUpdate cfgC7 ⟨[], [], []⟩ 5 1 cfgC7.sigs = (⟨[], [], []⟩, some 5) ∧
    checkBreach cfgC7 (([none, none] : List (Option ℚ)).set 1 (some 5)) ⟨[], [], []⟩ 1 = true ∧
    runLoop cfgC7 ⟨[], [], []⟩ 5 [none, none] [1] =
      ⟨⟨[], [], []⟩, 5, ([none, none] : List (Option ℚ)).set 1 (some 5)⟩ :=
  ⟨rfl, rfl,
   claim_C7_breach_halts_run cfgC7 ⟨[], [], []⟩ 5 [none, none] 1 [] ⟨[], [], []⟩ 5
     rfl rfl⟩

/-- Step equation of the loop when the step's signal processing raises:
the partially mutated state is kept, the portfolio value and equity
curve are untouched. -/
theorem runLoop_cons_none (cfg : Cfg) (st : BState) (pv : ℚ)
    (eq : List (Option ℚ)) (i : ℕ) (rest : List ℕ) (st1 : BState)
    (h : processSignalsAndUpdate cfg st pv i cfg.sigs = (st1, none)) :
    runLoop cfg st pv eq (i :: rest) = runLoop cfg st1 pv eq rest := by
  conv_lhs => unfold runLoop
  rw [h]

/-- Step equation of the loop when the step's signal processing
succeeds: the equity cell is written and the breach check decides
between stopping and continuing. -/
theorem runLoop_cons_some (cfg : Cfg) (st : BState) (pv : ℚ)
    (eq : List (Option ℚ)) (i : ℕ) (rest : List ℕ) (st1 : BState) (pv1 : ℚ)
    (h : processSignalsAndUpdate cfg st pv i cfg.sigs = (st1, some pv1)) :
    runLoop cfg st pv eq (i :: rest) =
      if checkBreach cfg (eq.set i (some pv1)) st1 i then
        ⟨st1, pv1, eq.set i (some pv1)⟩
      else runLoop cfg st1 pv1 (eq.set i (some pv1)) rest := by
  conv_lhs => unfold runLoop
  rw [h]

/-- The loop never changes the equity curve's length, and it never
touches cell 0 when every remaining index is positive. -/
theorem runLoop_equity_shape (cfg : Cfg) :
    ∀ (idxs : List ℕ) (st : BState) (pv : ℚ) (eq : List (Option ℚ)),
      (∀ j ∈ idxs, 1 ≤ j) →
      (runLoop cfg st pv eq idxs).equity.length = eq.length ∧
      (runLoop cfg st pv eq idxs).equity[0]? = eq[0]? := by
  intro idxs
  induction idxs with
  | nil => intro st pv eq _; exact ⟨rfl, rfl⟩
  | cons i rest ih =>
    intro st pv eq h
    have hi : 1 ≤ i := h i (List.mem_cons_self i rest)
    have hrest : ∀ j ∈ rest, 1 ≤ j := fun j hj => h j (List.mem_cons_of_mem i hj)
    unfold runLoop
    rcases hps : processSignalsAndUpdate cfg st pv i cfg.sigs with ⟨st1, pvo⟩
    cases pvo with
    | none => exact ih st1 pv eq hrest
    | some pv1 =>
      by_cases hb : checkBreach cfg (eq.set i (some pv1)) st1 i
      · simp only [hb, if_true]
        refine ⟨List.length_set .., ?_⟩
        exact List.getElem?_set_ne (by omega)
      · simp only [hb, if_false]
        obtain ⟨h1, h2⟩ := ih st1 pv1 (eq.set i (some pv1)) hrest
        refine ⟨h1.trans (List.length_set ..), h2.trans ?_⟩
        exact List.getElem?_set_ne (by omega)

/-- Claim C5 (status confirmed).  For every run over a non-empty price
table the equity curve is preallocated over the whole price index, so
its length equals the price-index length both for completed and for
early-halted runs (which satisfies the claim's "at most" clause), and
cell 0 holds the initial capital. -/
theorem claim_C5_equity_curve_shape (cfg : Cfg) (h : 1 ≤ cfg.bt.n) :
    (runBacktest cfg).equity.length = cfg.bt.n ∧
    (runBacktest cfg).equity[0]? = some (some cfg.bt.initialCapital) := by
  have hidx : ∀ j ∈ List.range' 1 (cfg.bt.n - 1), 1 ≤ j := by
    intro j hj
    rcases List.mem_range'.mp hj with ⟨k, _, rfl⟩
    omega
  obtain ⟨h1, h2⟩ := runLoop_equity_shape cfg (List.range' 1 (cfg.bt.n - 1))
    ⟨[], [], []⟩ cfg.bt.initialCapital
    ((List.replicate cfg.bt.n (none : Option ℚ)).set 0 (some cfg.bt.initialCapital))
    hidx
  constructor
  · rw [runBacktest, h1, List.length_set, List.length_replicate]
  · rw [runBacktest, h2, List.getElem?_set_self]
    rw [List.length_replicate]
    omega

/-- Witness for claim C5 at a concrete input: a one-day two-column
table (whose index is non-empty). -/
theorem claim_C5_witness :
    1 ≤ cfgC5.bt.n ∧
    (runBacktest cfgC5).equity.length = cfgC5.bt.n ∧
    (runBacktest cfgC5).equity[0]? = some (some cfgC5.bt.initialCapital) :=
  ⟨by decide, claim_C5_equity_curve_shape cfgC5 (by decide)⟩

/-- A zero signal on a flat ledger does nothing: no close (nothing to
close), no open (the signal is zero). -/
theorem processPairSignal_zero_flat (cfg : Cfg) (st : BState) (pair : TPair)
    (pv : ℚ) (date : ℕ) (confidence : ℚ) (ha : st.active = []) :
    processPairSignal cfg st pair 0 pv date confidence = (st, pv) := by
  simp [processPairSignal, closeGate, ha, lookupKey]

/-- Signal processing over any list of all-zero signal sources leaves a
flat ledger state and the portfolio value unchanged and raises nothing. -/
theorem processSignalsAndUpdate_zero (cfg : Cfg) (date : ℕ) :
    ∀ (sigs : List (TPair × (ℕ → Option ℚ))) (st : BState) (pv : ℚ),
      (∀ pf ∈ sigs, pf.2 date = some 0) → st.active = [] →
      processSignalsAndUpdate cfg st pv date sigs = (st, some pv) := by
  intro sigs
  induction sigs with
  | nil => intro st pv _ _; rfl
  | cons pf rest ih =>
    intro st pv h ha
    have hz : pf.2 date = some 0 := h pf (List.mem_cons_self pf rest)
    have hrest : ∀ q ∈ rest, q.2 date = some 0 :=
      fun q hq => h q (List.mem_cons_of_mem pf hq)
    rcases pf with ⟨pair, f⟩
    unfold processSignalsAndUpdate
    by_cases hs : hasSym cfg.bt.prices pair.1 ∧ hasSym cfg.bt.prices pair.2
    · rw [if_pos hs, show f date = some 0 from hz]
      show processSignalsAndUpdate cfg
        (processPairSignal cfg st pair 0 pv date 1).1
        (processPairSignal cfg st pair 0 pv date 1).2 date rest = (st, some pv)
      rw [processPairSignal_zero_flat cfg st pair pv date 1 ha]
      exact ih st pv hrest ha
    · rw [if_neg hs]
      exact ih st pv hrest ha

/-- The loop under all-zero signals: the ledger state never changes and
every equity cell it writes carries the unchanged portfolio value. -/
theorem runLoop_zero (cfg : Cfg) (pv : ℚ)
    (hz : ∀ pf ∈ cfg.sigs, ∀ i, pf.2 i = some 0) :
    ∀ (idxs : List ℕ) (st : BState) (eq : List (Option ℚ)),
      st.active = [] →
      (∀ x ∈ eq, x = none ∨ x = some pv) →
      (runLoop cfg st pv eq idxs).state = st ∧
      (runLoop cfg st pv eq idxs).finalValue = pv ∧
      ∀ x ∈ (runLoop cfg st pv eq idxs).equity, x = none ∨ x = some pv := by
  intro idxs
  induction idxs with
  | nil => intro st eq ha heq; exact ⟨rfl, rfl, heq⟩
  | cons i rest ih =>
    intro st eq ha heq
    have hstep : processSignalsAndUpdate cfg st pv i cfg.sigs = (st, some pv) :=
      processSignalsAndUpdate_zero cfg i cfg.sigs st pv
        (fun pf hpf => hz pf hpf i) ha
    have heq1 : ∀ x ∈ eq.set i (some pv), x = none ∨ x = some pv := by
      intro x hx
      rcases List.mem_or_eq_of_mem_set hx with hx' | hx'
      · exact heq x hx'
      · exact Or.inr hx'
    rw [runLoop_cons_some cfg st pv eq i rest st pv hstep]
    by_cases hb : checkBreach cfg (eq.set i (some pv)) st i
    · rw [if_pos hb]
      exact ⟨rfl, rfl, heq1⟩
    · rw [if_neg hb]
      exact ih st (eq.set i (some pv)) ha heq1

/-- Claim C8 (status confirmed).  If the strategy emits signal 0 for
every pair at every timestep, the run produces no trade records (and no
positions and no performance entries), and every recorded equity cell
equals the initial capital (cells of failed or unreached steps stay
NaN; none exist here, but the statement covers the preallocated
tail of an early-halted run as well). -/
theorem claim_C8_zero_signals_inert (cfg : Cfg)
    (hz : ∀ pf ∈ cfg.sigs, ∀ i, pf.2 i = some 0) :
    (runBacktest cfg).state = ⟨[], [], []⟩ ∧
    (runBacktest cfg).finalValue = cfg.bt.initialCapital ∧
    ∀ x ∈ (runBacktest cfg).equity, x = none ∨ x = some cfg.bt.initialCapital := by
  have heq0 : ∀ x ∈ (List.replicate cfg.bt.n (none : Option ℚ)).set 0
      (some cfg.bt.initialCapital), x = none ∨ x = some cfg.bt.initialCapital := by
    intro x hx
    rcases List.mem_or_eq_of_mem_set hx with hx' | hx'
    · exact Or.inl (List.eq_of_mem_replicate hx')
    · exact Or.inr hx'
  exact runLoop_zero cfg cfg.bt.initialCapital hz (List.range' 1 (cfg.bt.n - 1))
    ⟨[], [], []⟩ _ rfl heq0

/-- Witness for claim C8 at a concrete input: one pair emitting signal
0 on both days. -/
theorem claim_C8_witness :
    (runBacktest cfgC8).state = ⟨[], [], []⟩ ∧
    (runBacktest cfgC8).finalValue = cfgC8.bt.initialCapital ∧
    ∀ x ∈ (runBacktest cfgC8).equity, x = none ∨ x = some cfgC8.bt.initialCapital :=
  claim_C8_zero_signals_inert cfgC8 (by
    intro pf hpf i
    simp only [cfgC8, List.mem_singleton] at hpf
    subst hpf
    rfl)

/-- A key is absent from an association list iff its lookup fails. -/
theorem lookupKey_eq_none {κ α : Type} [DecidableEq κ] (k : κ)
    (l : List (κ × α)) : lookupKey k l = none ↔ k ∉ l.map Prod.fst := by
  induction l with
  | nil => simp [lookupKey]
  | cons kv rest ih =>
    by_cases hk : kv.1 = k
    · subst hk
      simp [lookupKey]
    · simp only [lookupKey, if_neg hk, List.map_cons, List.mem_cons, ih]
      exact ⟨fun h hor => hor.elim (fun he => hk he.symm) h,
             fun h hm => h (Or.inr hm)⟩

/-- Inserting an absent key appends it. -/
theorem dictInsert_of_absent {κ α : Type} [DecidableEq κ] {k : κ} {v : α}
    {l : List (κ × α)} (h : lookupKey k l = none) :
    dictInsert k v l = l ++ [(k, v)] := by
  simp [dictInsert, h]

/-- Lookup walks past a prefix in which the key is absent. -/
theorem lookupKey_append_of_none {κ α : Type} [DecidableEq κ] {k : κ}
    {l1 : List (κ × α)} (l2 : List (κ × α)) (h : lookupKey k l1 = none) :
    lookupKey k (l1 ++ l2) = lookupKey k l2 := by
  induction l1 with
  | nil => rfl
  | cons kv rest ih =>
    by_cases hk : kv.1 = k
    · rw [lookupKey, if_pos hk] at h
      exact absurd h (by simp)
    · rw [lookupKey, if_neg hk] at h
      rw [List.cons_append, lookupKey, if_neg hk]
      exact ih h

/-- Appending an entry with a different key does not change a lookup. -/
theorem lookupKey_append_single_ne {κ α : Type} [DecidableEq κ]
    {k' k : κ} (h : k' ≠ k) (v : α) (l : List (κ × α)) :
    lookupKey k' (l ++ [(k, v)]) = lookupKey k' l := by
  induction l with
  | nil =>
    show lookupKey k' [(k, v)] = none
    rw [lookupKey, if_neg (fun he => h he.symm)]
    rfl
  | cons kv rest ih =>
    rw [List.cons_append, lookupKey, lookupKey]
    by_cases hk : kv.1 = k'
    · rw [if_pos hk, if_pos hk]
    · rw [if_neg hk, if_neg hk]
      exact ih

/-- Erasing a key removes it entirely when the keys are unique. -/
theorem lookupKey_dictErase_self {κ α : Type} [DecidableEq κ] (k : κ)
    (l : List (κ × α)) (hnd : (l.map Prod.fst).Nodup) :
    lookupKey k (dictErase k l) = none := by
  induction l with
  | nil => rfl
  | cons kv rest ih =>
    simp only [List.map_cons, List.nodup_cons] at hnd
    by_cases hk : kv.1 = k
    · rw [dictErase, if_pos hk]
      exact (lookupKey_eq_none k rest).mpr (hk ▸ hnd.1)
    · rw [dictErase, if_neg hk, lookupKey, if_neg hk]
      exact ih hnd.2

/-- Erasing one key does not change lookups of other keys. -/
theorem lookupKey_dictErase_ne {κ α : Type} [DecidableEq κ]
    {k' k : κ} (h : k' ≠ k) (l : List (κ × α)) :
    lookupKey k' (dictErase k l) = lookupKey k' l := by
  induction l with
  | nil => rfl
  | cons kv rest ih =>
    by_cases hk : kv.1 = k
    · rw [dictErase, if_pos hk, lookupKey,
        if_neg (fun he : kv.1 = k' => h (hk ▸ he.symm ▸ rfl))]
    · rw [dictErase, if_neg hk, lookupKey, lookupKey]
      by_cases hk' : kv.1 = k'
      · rw [if_pos hk', if_pos hk']
      · rw [if_neg hk', if_neg hk']
        exact ih

/-- `dictErase` is a sublist of the original association list. -/
theorem dictErase_sublist {κ α : Type} [DecidableEq κ] (k : κ)
    (l : List (κ × α)) : (dictErase k l).Sublist l := by
  induction l with
  | nil => exact List.Sublist.refl _
  | cons kv rest ih =>
    by_cases hk : kv.1 = k
    · rw [dictErase, if_pos hk]
      exact List.sublist_cons_self kv rest
    · rw [dictErase, if_neg hk]
      exact ih.cons₂ kv

/-- Appending one record splits the per-pair action sequence. -/
theorem actionsOf_append_one (h : List TradeRec) (r : TradeRec) (p : TPair) :
    actionsOf (h ++ [r]) p =
      actionsOf h p ++ (if r.pair = p then [r.action] else []) := by
  by_cases hr : r.pair = p <;> simp [actionsOf, List.filter_append, hr]

/-- The lifecycle automaton consumes an appended action last. -/
theorem traceState_append_one (l : List TAction) (a : TAction) :
    traceState (l ++ [a]) = lcStep (traceState l) a := by
  simp [traceState, List.foldl_append]

/-- `_open_position` preserves the lifecycle invariant whenever the
pair is not already open — which its only call site guarantees. -/
theorem lifecycle_open (cfg : Cfg) (st : BState) (pair : TPair)
    (signal quantity pv : ℚ) (date : ℕ) (confidence : ℚ)
    (hinv : LifecycleInv st) (habs : lookupKey pair st.active = none) :
    LifecycleInv (openPosition cfg st pair signal quantity pv date confidence).1 := by
  simp only [openPosition]
  split
  · exact hinv
  · have habs' : pair ∉ st.active.map Prod.fst :=
      (lookupKey_eq_none pair st.active).mp habs
    constructor
    · intro p
      show traceState (actionsOf (st.history ++ [_]) p) =
        some (lookupKey p (dictInsert pair _ st.active)).isSome
      rw [actionsOf_append_one, dictInsert_of_absent habs]
      dsimp only
      by_cases hp : pair = p
      · subst hp
        rw [if_pos rfl, traceState_append_one, hinv.1 pair, habs,
          lookupKey_append_of_none _ habs]
        simp [lookupKey, lcStep]
      · rw [if_neg (by exact hp), List.append_nil, hinv.1 p,
          lookupKey_append_single_ne (fun he => hp he.symm)]
    · show ((dictInsert pair _ st.active).map Prod.fst).Nodup
      rw [dictInsert_of_absent habs]
      simp [List.nodup_append, hinv.2, habs']

/-- `_close_position` preserves the lifecycle invariant. -/
theorem lifecycle_close (cfg : Cfg) (st : BState) (pair : TPair)
    (pv : ℚ) (date : ℕ) (reason : String) (hinv : LifecycleInv st) :
    LifecycleInv (closePosition cfg st pair pv date reason).1 := by
  unfold closePosition
  cases hl : lookupKey pair st.active with
  | none => exact hinv
  | some pos =>
    constructor
    · intro p
      show traceState (actionsOf (st.history ++ [_]) p) =
        some (lookupKey p (dictErase pair st.active)).isSome
      rw [actionsOf_append_one]
      dsimp only
      by_cases hp : pair = p
      · subst hp
        rw [if_pos rfl, traceState_append_one, hinv.1 pair, hl,
          lookupKey_dictErase_self pair st.active hinv.2]
        rfl
      · rw [if_neg (by exact hp), List.append_nil, hinv.1 p,
          lookupKey_dictErase_ne (fun he => hp he.symm)]
    · exact hinv.2.sublist ((dictErase_sublist pair st.active).map Prod.fst)

/-- The close block preserves the lifecycle invariant. -/
theorem lifecycle_closeGate (cfg : Cfg) (st : BState) (pair : TPair)
    (signal pv : ℚ) (date : ℕ) (hinv : LifecycleInv st) :
    LifecycleInv (closeGate cfg st pair signal pv date).1 := by
  unfold closeGate
  cases hl : lookupKey pair st.active with
  | none => exact hinv
  | some pos =>
    show LifecycleInv (if signal = 0 ∨ signal * pos.signal < 0 then
      closePosition cfg st pair pv date "Signal change" else (st, pv)).1
    split
    · exact lifecycle_close cfg st pair pv date "Signal change" hinv
    · exact hinv

/-- `_process_pair_signal` preserves the lifecycle invariant. -/
theorem lifecycle_processPairSignal (cfg : Cfg) (st : BState) (pair : TPair)
    (signal pv : ℚ) (date : ℕ) (confidence : ℚ) (hinv : LifecycleInv st) :
    LifecycleInv (processPairSignal cfg st pair signal pv date confidence).1 := by
  unfold processPairSignal
  rcases hC : closeGate cfg st pair signal pv date with ⟨st1, pv1⟩
  have hinv1 : LifecycleInv st1 := by
    have h' := lifecycle_closeGate cfg st pair signal pv date hinv
    rw [hC] at h'
    exact h'
  dsimp only
  by_cases hopen : signal ≠ 0 ∧ lookupKey pair st1.active = none
  · rw [if_pos hopen]
    cases cfg.rm with
    | none =>
      dsimp only
      split
      · exact lifecycle_open cfg st1 pair signal _ pv1 date confidence hinv1 hopen.2
      · exact hinv1
    | some rm =>
      dsimp only
      split
      · exact hinv1
      · split
        · exact lifecycle_open cfg st1 pair signal _ pv1 date confidence hinv1 hopen.2
        · exact hinv1
  · rw [if_neg hopen]
    exact hinv1

/-- One step's signal processing preserves the lifecycle invariant,
also on its exception path (the already-mutated prefix state is kept). -/
theorem lifecycle_processSignals (cfg : Cfg) (date : ℕ) :
    ∀ (sigs : List (TPair × (ℕ → Option ℚ))) (st : BState) (pv : ℚ),
      LifecycleInv st →
      LifecycleInv (processSignalsAndUpdate cfg st pv date sigs).1 := by
  intro sigs
  induction sigs with
  | nil => intro st pv h; exact h
  | cons pf rest ih =>
    intro st pv h
    rcases pf with ⟨pair, f⟩
    unfold processSignalsAndUpdate
    by_cases hs : hasSym cfg.bt.prices pair.1 ∧ hasSym cfg.bt.prices pair.2
    · rw [if_pos hs]
      cases hf : f date with
      | none => exact h
      | some v =>
        exact ih _ _ (lifecycle_processPairSignal cfg st pair v pv date 1 h)
    · rw [if_neg hs]
      exact ih st pv h

/-- The whole loop preserves the lifecycle invariant. -/
theorem lifecycle_runLoop (cfg : Cfg) :
    ∀ (idxs : List ℕ) (st : BState) (pv : ℚ) (eq : List (Option ℚ)),
      LifecycleInv st → LifecycleInv (runLoop cfg st pv eq idxs).state := by
  intro idxs
  induction idxs with
  | nil => intro st pv eq h; exact h
  | cons i rest ih =>
    intro st pv eq h
    rcases hps : processSignalsAndUpdate cfg st pv i cfg.sigs with ⟨st1, pvo⟩
    have h1 : LifecycleInv st1 := by
      have := lifecycle_processSignals cfg i cfg.sigs st pv h
      rw [hps] at this
      exact this
    cases pvo with
    | none =>
      rw [runLoop_cons_none cfg st pv eq i rest st1 hps]
      exact ih st1 pv eq h1
    | some pv1 =>
      rw [runLoop_cons_some cfg st pv eq i rest st1 pv1 hps]
      by_cases hb : checkBreach cfg (eq.set i (some pv1)) st1 i
      · rw [if_pos hb]
        exact h1
      · rw [if_neg hb]
        exact ih st1 pv1 _ h1

/-- Claim C4 (status confirmed).  At the end of every run, each pair's
filtered trade history is a well-nested ENTRY–EXIT alternation (each
opened-and-closed lifecycle contributes exactly one ENTRY followed by
exactly one EXIT), and it ends in an unmatched ENTRY exactly when the
pair is in the open-position ledger: the automaton value is
`some true` for pairs open at the end and `some false` for closed ones,
never `none` (which a phantom, duplicated or orphaned record would
produce). -/
theorem claim_C4_no_phantom_positions (cfg : Cfg) (p : TPair) :
    traceState (actionsOf (runBacktest cfg).state.history p) =
      some (lookupKey p (runBacktest cfg).state.active).isSome := by
  have h0 : LifecycleInv ⟨[], [], []⟩ := ⟨fun _ => rfl, List.nodup_nil⟩
  exact (lifecycle_runLoop cfg _ _ _ _ h0).1 p

/-- With the features argument omitted, `features or []` is empty, every
membership gate is false, and the indicator chain passes the rows
through untouched. -/
theorem pipelineFE_none (fe : FeatureEngineer) (sA : ℚ → ℚ)
    (rows : List FRow) : pipelineFE fe sA none rows = Except.ok rows := rfl

/-- Prefixing renames only indicator columns, so a row without any is
untouched. -/
theorem renameFeats_of_empty (s : String) (r : FRow) (h : r.feats = []) :
    renameFeats s r = r := by
  cases r with
  | mk d sy a v f =>
    have hf : f = [] := h
    subst hf
    rfl

/-- Every element seeded or scanned ends up in the running
deduplication accumulator. -/
theorem mem_dedupFirst_aux :
    ∀ (l acc : List String) (x : String), x ∈ acc ∨ x ∈ l →
      x ∈ l.foldl (fun acc s => if s ∈ acc then acc else acc ++ [s]) acc := by
  intro l
  induction l with
  | nil =>
    intro acc x h
    rcases h with h | h
    · exact h
    · exact absurd h (List.not_mem_nil x)
  | cons s rest ih =>
    intro acc x h
    show x ∈ rest.foldl _ (if s ∈ acc then acc else acc ++ [s])
    apply ih
    by_cases hs : s ∈ acc
    · rw [if_pos hs]
      rcases h with h | h
      · exact Or.inl h
      · rcases List.mem_cons.mp h with rfl | h'
        · exact Or.inl hs
        · exact Or.inr h'
    · rw [if_neg hs]
      rcases h with h | h
      · exact Or.inl (List.mem_append_left _ h)
      · rcases List.mem_cons.mp h with rfl | h'
        · exact Or.inl (List.mem_append_right _ (List.mem_singleton_self x))
        · exact Or.inr h'

/-- The running deduplication accumulator stays duplicate-free. -/
theorem nodup_dedupFirst_aux :
    ∀ (l acc : List String), acc.Nodup →
      (l.foldl (fun acc s => if s ∈ acc then acc else acc ++ [s]) acc).Nodup := by
  intro l
  induction l with
  | nil => intro acc h; exact h
  | cons s rest ih =>
    intro acc h
    show (rest.foldl _ (if s ∈ acc then acc else acc ++ [s])).Nodup
    apply ih
    by_cases hs : s ∈ acc
    · rw [if_pos hs]; exact h
    · rw [if_neg hs]
      simp [List.nodup_append, h, hs]

theorem mem_dedupFirst {l : List String} {x : String} (h : x ∈ l) :
    x ∈ dedupFirst l :=
  mem_dedupFirst_aux l [] x (Or.inr h)

theorem nodup_dedupFirst (l : List String) : (dedupFirst l).Nodup :=
  nodup_dedupFirst_aux l [] List.nodup_nil

/-- Summing an indicator of one key over a duplicate-free key list. -/
theorem sum_map_ite_count (x : String) (c : ℕ) :
    ∀ ks : List String, ks.Nodup →
      (ks.map (fun s => if x = s then c else 0)).sum = if x ∈ ks then c else 0 := by
  intro ks
  induction ks with
  | nil => intro _; simp
  | cons s rest ih =>
    intro hnd
    rcases List.nodup_cons.mp hnd with ⟨hs, hrest⟩
    rw [List.map_cons, List.sum_cons, ih hrest]
    by_cases hx : x = s
    · subst hx
      rw [if_pos rfl, if_neg hs, if_pos (List.mem_cons_self x rest)]
      omega
    · rw [if_neg hx]
      by_cases hmem : x ∈ rest
      · rw [if_pos hmem, if_pos (List.mem_cons_of_mem s hmem)]
        simp
      · rw [if_neg hmem, if_neg (by
          rw [List.mem_cons]
          rintro (h | h)
          · exact hx h
          · exact hmem h)]

/-- Row counts inside one symbol's filtered group. -/
theorem count_filter_symbol (df : List FRow) (r : FRow) (s : String) :
    (df.filter (fun x => x.symbol = s)).count r =
      if r.symbol = s then df.count r else 0 := by
  by_cases hs : r.symbol = s
  · rw [if_pos hs]
    exact List.count_filter (by simp [hs])
  · rw [if_neg hs, List.count_eq_zero]
    intro hmem
    exact hs (by simpa using (List.mem_filter.mp hmem).2)

/-- Splitting a frame into its per-symbol groups loses and duplicates
no row. -/
theorem flatten_groups_perm (df : List FRow) (ks : List String)
    (hnd : ks.Nodup) (hcov : ∀ r ∈ df, r.symbol ∈ ks) :
    ((ks.map (fun s => df.filter (fun x => x.symbol = s))).flatten).Perm df := by
  rw [List.perm_iff_count]
  intro r
  rw [List.count_flatten, List.map_map]
  have hcomp : (List.count r ∘ fun s => df.filter (fun x => x.symbol = s)) =
      fun s => if r.symbol = s then df.count r else 0 := by
    funext s
    exact count_filter_symbol df r s
  rw [hcomp, sum_map_ite_count r.symbol (df.count r) ks hnd]
  by_cases hr : r.symbol ∈ ks
  · rw [if_pos hr]
  · rw [if_neg hr, eq_comm, List.count_eq_zero]
    intro hmem
    exact hr (hcov r hmem)

/-- Sorting each group does not change the flattened multiset. -/
theorem flatten_sorted_groups_perm (df : List FRow) :
    ∀ ks : List String,
      ((ks.map (fun s =>
        List.insertionSort dateLE (df.filter (fun x => x.symbol = s)))).flatten).Perm
      ((ks.map (fun s => df.filter (fun x => x.symbol = s))).flatten) := by
  intro ks
  induction ks with
  | nil => exact List.Perm.refl _
  | cons s rest ih =>
    simp only [List.map_cons, List.flatten_cons]
    exact (List.perm_insertionSort dateLE _).append ih

/-- The per-symbol fold of `generate_features` with the features
argument omitted concatenates the date-sorted groups unchanged. -/
theorem generateFold_none (fe : FeatureEngineer) (sA : ℚ → ℚ)
    (df : List FRow) (hfe : ∀ r ∈ df, r.feats = []) :
    ∀ (ks : List String) (acc : List FRow),
      ks.foldl (fun acc s =>
        match pipelineFE fe sA none
            (List.insertionSort dateLE (df.filter (fun r => r.symbol = s))) with
        | Except.error _ => acc
        | Except.ok sd => acc ++ sd.map (renameFeats s)) acc =
      acc ++ (ks.map (fun s =>
        List.insertionSort dateLE (df.filter (fun r => r.symbol = s)))).flatten := by
  intro ks
  induction ks with
  | nil => intro acc; simp
  | cons s rest ih =>
    intro acc
    rw [List.foldl_cons, pipelineFE_none]
    show rest.foldl _
        (acc ++ (List.insertionSort dateLE
          (df.filter (fun r => r.symbol = s))).map (renameFeats s)) = _
    have hmap : (List.insertionSort dateLE
        (df.filter (fun r => r.symbol = s))).map (renameFeats s) =
        List.insertionSort dateLE (df.filter (fun r => r.symbol = s)) := by
      have hid : ∀ x ∈ List.insertionSort dateLE
          (df.filter (fun r => r.symbol = s)), renameFeats s x = x := by
        intro x hx
        apply renameFeats_of_empty
        apply hfe
        have hx' := (List.perm_insertionSort dateLE _).mem_iff.mp hx
        exact (List.mem_filter.mp hx').1
      rw [List.map_congr_left hid, List.map_id']
    rw [hmap, ih, List.map_cons, List.flatten_cons, List.append_assoc]

/-- Claim C10 (status confirmed).  For every valid (non-empty, per the
validation gate) input frame carrying only the four required columns,
`generate_features` with the features argument omitted adds no
indicator column at all — each indicator is gated on membership in
`features or []`, which is empty for None — and returns exactly the
input's rows, re-sorted by Date and Symbol. -/
theorem claim_C10_generate_features_none (fe : FeatureEngineer)
    (sA : ℚ → ℚ) (df : List FRow) (hne : df ≠ [])
    (hfe : ∀ r ∈ df, r.feats = []) :
    ∃ out, generateFeatures fe sA df none = Except.ok out ∧
      out.Perm df ∧ List.Sorted dateSymLE out ∧ ∀ r ∈ out, r.feats = [] := by
  have hempty : df.isEmpty = false := by
    cases df with
    | nil => exact absurd rfl hne
    | cons a l => rfl
  have hcov : ∀ r ∈ df, r.symbol ∈ dedupFirst (df.map (fun x => x.symbol)) :=
    fun r hr => mem_dedupFirst (List.mem_map_of_mem _ hr)
  have hperm : ((dedupFirst (df.map (fun x => x.symbol))).map (fun s =>
      List.insertionSort dateLE (df.filter (fun r => r.symbol = s)))).flatten.Perm df :=
    (flatten_sorted_groups_perm df _).trans
      (flatten_groups_perm df _ (nodup_dedupFirst _) hcov)
  refine ⟨List.insertionSort dateSymLE
    ((dedupFirst (df.map (fun x => x.symbol))).map (fun s =>
      List.insertionSort dateLE (df.filter (fun r => r.symbol = s)))).flatten,
    ?_, ?_, ?_, ?_⟩
  · rw [generateFeatures, if_neg (by simp [hempty]),
      generateFold_none fe sA df hfe _ [], List.nil_append]
  · exact (List.perm_insertionSort dateSymLE _).trans hperm
  · exact List.sorted_insertionSort dateSymLE _
  · intro r hr
    exact hfe r (hperm.mem_iff.mp ((List.perm_insertionSort dateSymLE _).mem_iff.mp hr))

/-- Witness for claim C10 at a concrete input: a two-row frame with the
square root modelled by the identity function; the result is the input
re-sorted with no indicator columns. -/
theorem claim_C10_witness :
    dfC10 ≠ [] ∧ (∀ r ∈ dfC10, r.feats = []) ∧
    ∃ out, generateFeatures feC10 (fun q => q) dfC10 none = Except.ok out ∧
      out.Perm dfC10 ∧ List.Sorted dateSymLE out ∧ ∀ r ∈ out, r.feats = [] :=
  ⟨by decide, by decide,
   claim_C10_generate_features_none feC10 (fun q => q) dfC10 (by decide) (by decide)⟩

end PairsTrading
